import Mathlib

/-!
Shallow embedding of `gui/core/nanogui.py` (micropython-nano-gui rendering core):
the Bresenham-style circle rasterisers, the complex-arithmetic polar-line and
arrow primitives, the deferred-render registry (`refresh` / `DObject._set_pend`)
and the geometry clamping of `DObject.__init__`, together with theorems settling
the specification claims about them.

Machine conventions: device coordinates and colors are modelled as `ℤ`
(the code converts them with `int(...)` / works with Python ints), the
complex-number primitives (`polar`, `arrow`) are modelled over `ℂ`, and the
`while` loops of the circle algorithms are modelled with an explicit fuel that
provably dominates the loop's iteration count.
-/

namespace NanoGui

/-- One primitive operation emitted to a framebuffer device
(`dev.pixel`, `dev.line`, `dev.fill_rect`, `dev.rect`, `dev.fill`,
`dev.show`). -/
inductive DevOp where
  | pixel (x y c : ℤ)
  | line (x0 y0 x1 y1 c : ℤ)
  | fillrect (x y w h c : ℤ)
  | rect (x y w h c : ℤ)
  | fill (c : ℤ)
  | present
  deriving DecidableEq, Repr

/-! ### The single-width circle algorithm `_circle`

```python
def _circle(dev, x0, y0, r, color): # Single pixel circle
    x = -r
    y = 0
    err = 2 -2*r
    while x <= 0:
        dev.pixel(x0 -x, y0 +y, color)
        dev.pixel(x0 +x, y0 +y, color)
        dev.pixel(x0 +x, y0 -y, color)
        dev.pixel(x0 -x, y0 -y, color)
        e2 = err
        if (e2 <= y):
            y += 1
            err += y*2 +1
            if (-x == y and e2 <= x):
                e2 = 0
        if (e2 > x):
            x += 1
            err += x*2 +1
```
The loop is modelled by `circleGo`, which records the sequence of visited
`(x, y)` states; the pixel writes of each visit are recovered by `_circle`.
The fuel `(2*r + 2).toNat` dominates the iteration count (each iteration
increments `x` or `y`, `x` runs from `-r` to `1` and `y` from `0` to `r`). -/

/-- The visited `(x, y)` states of the `_circle` loop, with explicit fuel.
Each iteration follows the Python body above: `e2` is the error term at entry,
`y`/`err` update when `e2 ≤ y`, the tie case `-x == y ∧ e2 ≤ x` zeroes `e2`,
and `x`/`err` update when the (possibly zeroed) `e2` exceeds `x`. -/
def circleGo : ℕ → ℤ → ℤ → ℤ → List (ℤ × ℤ)
  | 0, _, _, _ => []
  | fuel+1, x, y, err =>
    if x ≤ 0 then
      (x, y) ::
        (if err ≤ y then
          (if -x = y + 1 ∧ err ≤ x then
            (if (0:ℤ) > x then
              circleGo fuel (x+1) (y+1) ((err + (y+1)*2 + 1) + (x+1)*2 + 1)
            else
              circleGo fuel x (y+1) (err + (y+1)*2 + 1))
          else
            (if err > x then
              circleGo fuel (x+1) (y+1) ((err + (y+1)*2 + 1) + (x+1)*2 + 1)
            else
              circleGo fuel x (y+1) (err + (y+1)*2 + 1)))
        else
          (if err > x then
            circleGo fuel (x+1) y (err + (x+1)*2 + 1)
          else
            circleGo fuel x y err))
    else []

/-- The `(x, y)` states visited by `_circle dev x0 y0 r color`. -/
def circleVisits (r : ℤ) : List (ℤ × ℤ) :=
  circleGo (2*r + 2).toNat (-r) 0 (2 - 2*r)

/-- The pixel operations emitted by `_circle(dev, x0, y0, r, color)`,
four mirrored writes per visited loop state. -/
def _circle (x0 y0 r color : ℤ) : List DevOp :=
  (circleVisits r).flatMap fun p =>
    [DevOp.pixel (x0 - p.1) (y0 + p.2) color,
     DevOp.pixel (x0 + p.1) (y0 + p.2) color,
     DevOp.pixel (x0 + p.1) (y0 - p.2) color,
     DevOp.pixel (x0 - p.1) (y0 - p.2) color]

/-- Python `range(start, stop, -1)` as a list of `ℤ`. -/
def rangeDown (start stop : ℤ) : List ℤ :=
  (List.range (start - stop).toNat).map fun i => start - i

/-- `circle(dev, x0, y0, r, color, width=1)`: `width` concentric
single-pixel circles at radii `r, r-1, …, r-width+1`. -/
def circle (x0 y0 r color : ℤ) (width : ℤ := 1) : List DevOp :=
  (rangeDown r (r - width)).flatMap fun ri => _circle x0 y0 ri color

/-- The visited `(x, y)` states of the `fillcircle` loop: the error-driven
stepping is identical to `_circle` (same initialisation, same update rule). -/
def fillcircleVisits (r : ℤ) : List (ℤ × ℤ) :=
  circleVisits r

/-- The line operations emitted by `fillcircle(dev, x0, y0, r, color)`:
two vertical line segments per visited loop state. -/
def fillcircle (x0 y0 r color : ℤ) : List DevOp :=
  (fillcircleVisits r).flatMap fun p =>
    [DevOp.line (x0 - p.1) (y0 - p.2) (x0 - p.1) (y0 + p.2) color,
     DevOp.line (x0 + p.1) (y0 - p.2) (x0 + p.1) (y0 + p.2) color]

/-! ### Geometry clamping of `DObject.__init__`

```python
if row < 0:
    row = 0
    self.warning()
elif row + height >= device.height:
    row = device.height - height - 1
    self.warning()
if col < 0:
    col = 0
    self.warning()
elif col + width >= device.width:
    row = device.width - width - 1      # NB: assigns row, not col
    self.warning()
self.row = row
self.col = col
```
-/

/-- Result of the geometry part of `DObject.__init__`: the stored `row`,
the stored `col`, and the number of `warning()` calls. -/
structure DObjGeom where
  row : ℤ
  col : ℤ
  warnings : ℕ
  deriving DecidableEq, Repr

/-- The geometry clamping performed by `DObject.__init__`, including the
branch that assigns `row = device.width - width - 1` where the surrounding
code handles an out-of-range `col`. -/
def dobjInit (devHeight devWidth row col height width : ℤ) : DObjGeom :=
  let rw1 : ℤ × ℕ :=
    if row < 0 then (0, 1)
    else if row + height ≥ devHeight then (devHeight - height - 1, 1)
    else (row, 0)
  let rcw2 : ℤ × ℤ × ℕ :=
    if col < 0 then (rw1.1, 0, 1)
    else if col + width ≥ devWidth then (devWidth - width - 1, col, 1)
    else (rw1.1, col, 0)
  ⟨rcw2.1, rcw2.2.1, rw1.2 + rcw2.2.2⟩

/-! ### The render registry: `refresh` and `DObject._set_pend`

```python
def refresh(device, clear=False):
    if not isinstance(device, framebuf.FrameBuffer):
        raise ValueError('Device must be derived from FrameBuffer.')
    if device not in DObject.devices:
        DObject.devices[device] = set()
        device.fill(0)
    else:
        if clear:
            DObject.devices[device].clear()
            device.fill(0)
        else:
            for obj in DObject.devices[device]:
                obj.show()
            DObject.devices[device].clear()
    device.show()

@classmethod
def _set_pend(cls, obj):
    cls.devices[obj.device].add(obj)
```
Devices are modelled by an id together with the `isinstance` flag; widgets by
ids; `DObject.devices` by an association list from device ids to pending
`Finset`s (Python `set` semantics). -/

/-- A candidate display device: `isFB` models
`isinstance(device, framebuf.FrameBuffer)`. -/
structure Device where
  id : ℕ
  isFB : Bool
  deriving DecidableEq, Repr

/-- Observable events of a `refresh` call: the `device.fill(0)` blank,
each pending widget's `show()`, and the final `device.show()` present. -/
inductive REv where
  | fill
  | showW (w : ℕ)
  | present
  deriving DecidableEq, Repr

/-- The `DObject.devices` registry: device id → pending widget set. -/
abbrev Registry := List (ℕ × Finset ℕ)

/-- Dictionary lookup in the registry. -/
def regFind (reg : Registry) (d : ℕ) : Option (Finset ℕ) :=
  match reg with
  | [] => none
  | (k, s) :: t => if k = d then some s else regFind t d

/-- Dictionary update/insert in the registry. -/
def regSet (reg : Registry) (d : ℕ) (s : Finset ℕ) : Registry :=
  match reg with
  | [] => [(d, s)]
  | (k, s') :: t => if k = d then (d, s) :: t else (k, s') :: regSet t d s

/-- `refresh(device, clear)`: returns the updated registry and either the
emitted events or the `ValueError` for a non-framebuffer argument. -/
def refresh (reg : Registry) (dev : Device) (clear : Bool := false) :
    Registry × Except String (List REv) :=
  if !dev.isFB then
    (reg, Except.error ("Device must be derived from FrameBuffer."))
  else
    match regFind reg dev.id with
    | none => (regSet reg dev.id ∅, Except.ok [REv.fill, REv.present])
    | some s =>
      if clear then
        (regSet reg dev.id ∅, Except.ok [REv.fill, REv.present])
      else
        (regSet reg dev.id ∅,
          Except.ok ((s.sort (· ≤ ·)).map REv.showW ++ [REv.present]))

/-- `DObject._set_pend(obj)`: `cls.devices[obj.device].add(obj)`.
A missing registry entry raises a `KeyError` (Python dict subscript). -/
def setPend (reg : Registry) (devId w : ℕ) : Registry × Except String Unit :=
  match regFind reg devId with
  | none => (reg, Except.error ("KeyError"))
  | some s => (regSet reg devId (insert w s), Except.ok ())

/-! ### The complex-plane primitives: `polar`, `conj`, `arrow`

```python
def polar(dev, origin, line, color):
    xs, ys = origin.real, origin.imag
    theta = cmath.polar(line)[1]
    dev.line(round(xs), round(ys), round(xs + line.real), round(ys - line.imag), color)

def conj(v):
    return v.real - v.imag * 1j

def arrow(dev, origin, vec, lc, color, ccw=cmath.exp(3j * cmath.pi/4), cw=cmath.exp(-3j * cmath.pi/4)):
    length, theta = cmath.polar(vec)
    uv = cmath.rect(1, theta)
    start = -vec
    if length > 3 * lc:
        ds = cmath.rect(lc, theta)
        start += ds
    chev = lc + 0j
    polar(dev, origin, vec, color)
    polar(dev, origin, start, color)
    polar(dev, origin + conj(vec), chev*ccw*uv, color)
    polar(dev, origin + conj(vec), chev*cw*uv, color)
    if length > lc:
        polar(dev, origin + conj(start), chev*ccw*uv, color)
        polar(dev, origin + conj(start), chev*cw*uv, color)
```
Python floats are idealised as real numbers; `round` is Python's
round-half-to-even. -/

open scoped ComplexConjugate in
/-- Python's `round`: nearest integer, ties to the even integer. -/
noncomputable def pyRound (x : ℝ) : ℤ :=
  if Int.fract x < 1/2 then ⌊x⌋
  else if 1/2 < Int.fract x then ⌊x⌋ + 1
  else if Even ⌊x⌋ then ⌊x⌋ else ⌊x⌋ + 1

/-- `cmath.rect(r, phi) = r * (cos phi + i sin phi) = r * exp(i phi)`. -/
noncomputable def crect (r phi : ℝ) : ℂ :=
  r * Complex.exp (phi * Complex.I)

/-- `cmath.polar(z)[1] = phase(z)`, the argument (`phase(0) = 0`). -/
noncomputable def cphase (z : ℂ) : ℝ := Complex.arg z

/-- The module-level `conj` helper: `v.real - v.imag * 1j`. -/
noncomputable def conjv (v : ℂ) : ℂ := (v.re : ℂ) - (v.im : ℂ) * Complex.I

/-- The single line operation emitted by `polar(dev, origin, line, color)`. -/
noncomputable def polar (origin line : ℂ) (color : ℤ) : List DevOp :=
  [DevOp.line (pyRound origin.re) (pyRound origin.im)
    (pyRound (origin.re + line.re)) (pyRound (origin.im - line.im)) color]

/-- `ccw = cmath.exp(3j * cmath.pi/4)`. -/
noncomputable def ccw : ℂ := Complex.exp (3 * Complex.I * Real.pi / 4)

/-- `cw = cmath.exp(-3j * cmath.pi/4)`. -/
noncomputable def cw : ℂ := Complex.exp (-3 * Complex.I * Real.pi / 4)

/-- The tail start point computed by `arrow`: `-vec`, shortened by a
chevron length along the shaft when the shaft is long. -/
noncomputable def arrowStart (vec : ℂ) (lc : ℝ) : ℂ :=
  if Complex.abs vec > 3 * lc then -vec + crect lc (cphase vec) else -vec

/-- The `(origin, line)` arguments of the successive `polar` calls made by
`arrow(dev, origin, vec, lc, color)`: shaft to tip, shaft to tail, the tip
chevron pair, and (for shafts longer than `lc`) the tail chevron pair. -/
noncomputable def arrowCalls (origin vec : ℂ) (lc : ℝ) : List (ℂ × ℂ) :=
  let uv := crect 1 (cphase vec)
  let start := arrowStart vec lc
  let chev : ℂ := (lc : ℝ)
  [(origin, vec), (origin, start),
   (origin + conjv vec, chev * ccw * uv), (origin + conjv vec, chev * cw * uv)] ++
  (if Complex.abs vec > lc then
    [(origin + conjv start, chev * ccw * uv), (origin + conjv start, chev * cw * uv)]
  else [])

/-- The device operations emitted by `arrow(dev, origin, vec, lc, color)`. -/
noncomputable def arrow (origin vec : ℂ) (lc : ℝ) (color : ℤ) : List DevOp :=
  (arrowCalls origin vec lc).flatMap fun c => polar c.1 c.2 color

/-! ### Abstract view of the `_circle` loop

The error term of the loop is a function of the position:
`err = (x+1)² + (y+1)² - r²` (the circle equation at the next diagonal
position).  `xStep` is the loop body expressed on `(x, y)` alone, and
`xchain` the corresponding sequence of visited states; `circleGo` is proved
to coincide with it. -/

/-- The circle-equation value `(x+1)² + (y+1)² - r²`, which the `_circle`
loop maintains in `err`. -/
def Dx (r x y : ℤ) : ℤ := (x + 1)^2 + (y + 1)^2 - r^2

/-- One `_circle` loop iteration, on the position `(x, y)` alone. -/
def xStep (r x y : ℤ) : ℤ × ℤ :=
  if Dx r x y ≤ y then
    if -x = y + 1 ∧ Dx r x y ≤ x then
      (if (0:ℤ) > x then x + 1 else x, y + 1)
    else
      (if Dx r x y > x then x + 1 else x, y + 1)
  else
    (if Dx r x y > x then x + 1 else x, y)

/-- The abstract visited-state sequence of the `_circle` loop. -/
def xchain (r : ℤ) : ℕ → ℤ × ℤ → List (ℤ × ℤ)
  | 0, _ => []
  | f+1, q => if q.1 ≤ 0 then q :: xchain r f (xStep r q.1 q.2) else []

/-- The invariant carried along the `_circle` loop path (for radius `r ≥ 1`):
the start state, or the constraints recorded by the kind of step that entered
the state (a `y`-step, an `x`-step, a normal diagonal step, or the tie-case
diagonal step, respectively). -/
def Minv (r x y : ℤ) : Prop :=
  (x = -r ∧ y = 0) ∨
  (2*y + 3*x + 1 < Dx r x y ∧ Dx r x y ≤ 2*y + x + 1 ∧ -x ≠ y) ∨
  (y + 2*x + 1 < Dx r x y ∧
    (Dx r x y ≤ 2*y + 3*x + 1 ∨ Dx r x y ≤ 3*y + 4*x - 1 ∨
      (-x ≤ y - 2 ∧ Dx r x y ≤ 3*y + 4*x))) ∨
  (2*y + 3*x + 1 < Dx r x y ∧
    (Dx r x y ≤ 3*y + 2*x ∨ (-x < y ∧ Dx r x y ≤ 3*y + 2*x + 1))) ∨
  (y = -x + 1 ∧ Dx r x y = x + 3)

/-! ## Theorems -/

/-! ### Registry helper lemmas -/

theorem regFind_regSet_self (reg : Registry) (d : ℕ) (s : Finset ℕ) :
    regFind (regSet reg d s) d = some s := by
  induction reg with
  | nil => simp [regSet, regFind]
  | cons h t ih =>
    obtain ⟨k, s'⟩ := h
    by_cases hk : k = d <;> simp [regSet, regFind, hk, ih]

theorem regSet_regSet (reg : Registry) (d : ℕ) (s1 s2 : Finset ℕ) :
    regSet (regSet reg d s1) d s2 = regSet reg d s2 := by
  induction reg with
  | nil => simp [regSet]
  | cons h t ih =>
    obtain ⟨k, s'⟩ := h
    by_cases hk : k = d <;> simp [regSet, hk, ih]

/-! ### Claim C1 (status: code bug in `DObject.__init__`) -/

/-- Claim C1: the spec says an out-of-range `col` (with `col + width` beyond
the surface width) is clamped so that the stored `col` is in range.  The code
instead assigns `device.width - width - 1` to `row` (a copy/paste defect the
spec's design notes also flag): on a 64×128 surface, a widget requested at
`row = 0, col = 120` with `height = 10, width = 20` is stored with
`row = 107, col = 120` — the stored `col` is unchanged and still out of
range (`120 + 20 ≥ 128`), while `row` is corrupted. -/
theorem dobjInit_col_clamp_bug :
    dobjInit 64 128 0 120 10 20 = ⟨107, 120, 1⟩ ∧ ¬(120 + 20 < 128) := by
  decide

/-! ### Claim C2 (degenerate radii) -/

theorem circleGo_of_pos (f : ℕ) (x y err : ℤ) (h : 0 < x) :
    circleGo f x y err = [] := by
  cases f with
  | zero => rfl
  | succ f =>
    simp only [circleGo]
    rw [if_neg (by omega)]

theorem circleVisits_of_neg (r : ℤ) (h : r < 0) : circleVisits r = [] :=
  circleGo_of_pos _ _ _ _ (by omega)

theorem rangeDown_one (r : ℤ) : rangeDown r (r - 1) = [r] := by
  have h1 : r - (r - 1) = 1 := by ring
  have h2 : List.range 1 = [0] := rfl
  simp [rangeDown, h1, h2]

/-- Claim C2, counterexample: at radius `0` the loop body runs once
(`x = 0 ≤ 0`) and plots the center pixel, so `circle` (width 1) and
`fillcircle` do emit operations for `r = 0`; the claim's "no drawing for
every `r ≤ 0`" is false at `r = 0`. -/
theorem circle_r_zero_emits_ops :
    ¬(circle 0 0 0 1 1 = [] ∧ fillcircle 0 0 0 1 = []) := by
  decide

/-- Claim C2, amended: for every strictly negative radius `r < 0`, `circle`
with width 1 and `fillcircle` terminate without emitting any pixel or line
operation (at `r = 0` they emit operations touching only the center). -/
theorem circle_neg_radius_no_ops (x0 y0 r color : ℤ) (h : r < 0) :
    circle x0 y0 r color 1 = [] ∧ fillcircle x0 y0 r color = [] := by
  have hv : circleVisits r = [] := circleVisits_of_neg r h
  constructor
  · simp [circle, rangeDown_one, _circle, hv]
  · simp [fillcircle, fillcircleVisits, hv]

/-- Witness for `circle_neg_radius_no_ops` at `r = -1`. -/
theorem circle_neg_radius_no_ops_witness :
    (-1 : ℤ) < 0 ∧ (circle 0 0 (-1) 1 1 = [] ∧ fillcircle 0 0 (-1) 1 = []) :=
  ⟨by decide, circle_neg_radius_no_ops 0 0 (-1) 1 (by decide)⟩

/-! ### Claim C9 (invalid surface) -/

/-- Claim C9: `refresh` on an argument that does not satisfy the framebuffer
contract fails with the `ValueError` (the spec's `InvalidSurfaceError`)
before emitting any drawing operation, and leaves the registry unchanged. -/
theorem refresh_invalid_surface (reg : Registry) (dev : Device) (clear : Bool)
    (h : dev.isFB = false) :
    refresh reg dev clear =
      (reg, Except.error ("Device must be derived from FrameBuffer.")) := by
  simp [refresh, h]

/-- Witness for `refresh_invalid_surface`. -/
theorem refresh_invalid_surface_witness :
    (Device.mk 0 false).isFB = false ∧
      refresh [] (Device.mk 0 false) false =
        ([], Except.error ("Device must be derived from FrameBuffer.")) :=
  ⟨rfl, refresh_invalid_surface [] (Device.mk 0 false) false rfl⟩

/-! ### Claim C10 (pend on an unregistered surface) -/

/-- Claim C10: `_set_pend` on a surface that `refresh` has never seen
raises (`KeyError` on the registry dictionary) and leaves the registry
unchanged — the registry entry is created only by `refresh`, never lazily
by the pend operation. -/
theorem setPend_unknown_surface (reg : Registry) (devId w : ℕ)
    (h : regFind reg devId = none) :
    setPend reg devId w = (reg, Except.error ("KeyError")) := by
  simp [setPend, h]

/-- Witness for `setPend_unknown_surface`. -/
theorem setPend_unknown_surface_witness :
    regFind [] 0 = none ∧ setPend [] 0 5 = ([], Except.error ("KeyError")) :=
  ⟨rfl, setPend_unknown_surface [] 0 5 rfl⟩

/-! ### Claim C7 (pend is idempotent: one `show` per flush) -/

theorem showW_injective : Function.Injective REv.showW := by
  intro a b h
  injection h

/-- Claim C7: registering the same widget twice as pending on a registered
surface leaves the registry in the same state as registering it once (the
pending collection is a set), and the next flush invokes that widget's
`show()` exactly once. -/
theorem setPend_idempotent_one_show (reg : Registry) (dev : Device) (w : ℕ)
    (s : Finset ℕ) (hfb : dev.isFB = true) (hs : regFind reg dev.id = some s) :
    (setPend (setPend reg dev.id w).1 dev.id w).1 = (setPend reg dev.id w).1 ∧
    ∀ evs,
      (refresh (setPend (setPend reg dev.id w).1 dev.id w).1 dev false).2 =
        Except.ok evs →
      evs.count (REv.showW w) = 1 := by
  have h1 : (setPend reg dev.id w).1 = regSet reg dev.id (insert w s) := by
    simp [setPend, hs]
  have h2 : regFind (regSet reg dev.id (insert w s)) dev.id
      = some (insert w s) := regFind_regSet_self reg dev.id (insert w s)
  have h3 : (setPend (regSet reg dev.id (insert w s)) dev.id w).1
      = regSet reg dev.id (insert w s) := by
    simp [setPend, h2, regSet_regSet, Finset.insert_idem]
  refine ⟨by rw [h1, h3], ?_⟩
  intro evs hevs
  rw [h1, h3] at hevs
  simp [refresh, hfb, h2] at hevs
  subst hevs
  rw [List.count_append]
  have hcm : (((insert w s).sort (· ≤ ·)).map REv.showW).count (REv.showW w)
      = ((insert w s).sort (· ≤ ·)).count w :=
    List.count_map_of_injective _ _ showW_injective _
  rw [hcm]
  have hone : ((insert w s).sort (· ≤ ·)).count w = 1 :=
    List.count_eq_one_of_mem (Finset.sort_nodup _ _)
      (Finset.mem_sort _ |>.mpr (Finset.mem_insert_self w s))
  rw [hone]
  have h0 : List.count (REv.showW w) [REv.present] = 0 := by
    simp [List.count_eq_zero]
  rw [h0]

/-- Witness for `setPend_idempotent_one_show`. -/
theorem setPend_idempotent_one_show_witness :
    (Device.mk 0 true).isFB = true ∧
    regFind [(0, (∅ : Finset ℕ))] (Device.mk 0 true).id = some ∅ ∧
    ((setPend (setPend [(0, ∅)] 0 5).1 0 5).1 = (setPend [(0, ∅)] 0 5).1 ∧
      ∀ evs,
        (refresh (setPend (setPend [(0, ∅)] 0 5).1 0 5).1
            (Device.mk 0 true) false).2 = Except.ok evs →
        evs.count (REv.showW 5) = 1) :=
  ⟨rfl, rfl, setPend_idempotent_one_show [(0, ∅)] (Device.mk 0 true) 5 ∅ rfl rfl⟩

/-! ### Claim C8 (back-to-back refresh) -/

/-- Claim C8: calling `refresh(surface)` twice in a row with nothing newly
pended between the calls makes the second call emit no fill and no widget
`show()` — only the final `present`. -/
theorem refresh_twice_only_present (reg : Registry) (dev : Device)
    (hfb : dev.isFB = true) :
    (refresh (refresh reg dev false).1 dev false).2 =
      Except.ok [REv.present] := by
  rcases hfind : regFind reg dev.id with _ | s
  · simp [refresh, hfb, hfind, regFind_regSet_self, Finset.sort_empty]
  · simp [refresh, hfb, hfind, regFind_regSet_self, Finset.sort_empty]

/-- Witness for `refresh_twice_only_present`. -/
theorem refresh_twice_only_present_witness :
    (Device.mk 0 true).isFB = true ∧
      (refresh (refresh [] (Device.mk 0 true) false).1
          (Device.mk 0 true) false).2 = Except.ok [REv.present] :=
  ⟨rfl, refresh_twice_only_present [] (Device.mk 0 true) rfl⟩

/-! ### Claim C6 (polar line: endpoint formula and rounding) -/

theorem pyRound_nearest (x : ℝ) (n : ℤ) :
    |x - (pyRound x : ℝ)| ≤ |x - (n : ℝ)| := by
  have hfl : (⌊x⌋ : ℝ) ≤ x := Int.floor_le x
  have hlt : x < ⌊x⌋ + 1 := Int.lt_floor_add_one x
  have hn : (n : ℝ) ≤ (⌊x⌋ : ℝ) ∨ (⌊x⌋ : ℝ) + 1 ≤ (n : ℝ) := by
    have h : n ≤ ⌊x⌋ ∨ ⌊x⌋ + 1 ≤ n := by omega
    rcases h with h | h
    · left; exact_mod_cast h
    · right; exact_mod_cast h
  have k1 : x - (n : ℝ) ≤ |x - (n : ℝ)| := le_abs_self _
  have k2 : -(x - (n : ℝ)) ≤ |x - (n : ℝ)| := neg_le_abs _
  unfold pyRound
  split_ifs with h1 h2 h3
  · simp only [Int.fract] at h1
    rw [abs_of_nonneg (by linarith)]
    rcases hn with h | h <;> linarith
  · simp only [Int.fract] at h1 h2
    push_cast
    rw [abs_of_nonpos (by linarith), neg_sub]
    rcases hn with h | h <;> linarith
  · simp only [Int.fract] at h1 h2
    rw [abs_of_nonneg (by linarith)]
    rcases hn with h | h <;> linarith
  · simp only [Int.fract] at h1 h2
    push_cast
    rw [abs_of_nonpos (by linarith), neg_sub]
    rcases hn with h | h <;> linarith

/-- Claim C6: `polar(dev, origin, line, color)` emits exactly one line
segment, from `(round(origin.x), round(origin.y))` to
`(round(origin.x + line.x), round(origin.y - line.y))` — the vector's `y`
sign is flipped to convert the mathematical "up is positive" convention to
screen rows — and `round` (Python round-half-to-even) is a nearest
integer. -/
theorem polar_single_rounded_line (origin line : ℂ) (color : ℤ) :
    polar origin line color =
      [DevOp.line (pyRound origin.re) (pyRound origin.im)
        (pyRound (origin.re + line.re)) (pyRound (origin.im - line.im)) color] ∧
    ∀ (x : ℝ) (n : ℤ), |x - (pyRound x : ℝ)| ≤ |x - (n : ℝ)| :=
  ⟨rfl, pyRound_nearest⟩

/-! ### Claims C3 and C4 (arrow geometry) -/

theorem pyRound_intCast (n : ℤ) : pyRound ((n : ℤ) : ℝ) = n := by
  unfold pyRound
  rw [if_pos]
  · exact Int.floor_intCast n
  · rw [Int.fract_intCast]
    norm_num

theorem arrowStart_abs (vec : ℂ) (lc : ℝ) (h : Complex.abs vec > 3 * lc) :
    Complex.abs (arrowStart vec lc) = Complex.abs vec - lc := by
  rw [arrowStart, if_pos h]
  by_cases hv : vec = 0
  · subst hv
    have hlc : lc < 0 := by
      rw [map_zero] at h
      linarith
    rw [map_zero]
    simp only [cphase, Complex.arg_zero, crect, neg_zero, zero_add,
      Complex.ofReal_zero, zero_mul, Complex.exp_zero, mul_one]
    rw [Complex.abs_ofReal, abs_of_neg hlc]
    ring
  · have key := Complex.abs_mul_exp_arg_mul_I vec
    have hA : 0 ≤ Complex.abs vec := AbsoluteValue.nonneg _ _
    have hlcA : lc < Complex.abs vec := by
      rcases le_or_lt 0 lc with h0 | h0 <;> linarith
    have hzero : vec - (Complex.abs vec : ℂ) *
        Complex.exp ((vec.arg : ℝ) * Complex.I) = 0 := by
      rw [key, sub_self]
    have heq : -vec + crect lc (cphase vec) =
        ((lc - Complex.abs vec : ℝ) : ℂ) *
          Complex.exp ((vec.arg : ℝ) * Complex.I) := by
      simp only [crect, cphase]
      push_cast at hzero ⊢
      linear_combination -hzero
    rw [heq, map_mul, Complex.abs_ofReal, Complex.abs_exp_ofReal_mul_I,
      mul_one, abs_of_neg (by linarith)]
    ring

/-- Claim C3, counterexample: for `vec = 4`, `lc = 1` (so `|vec| > 3·lc`)
the two shaft segments drawn by `arrow` run from the origin to the tip
(length `4`) and from the origin to the shortened tail (length `3`); their
combined length `7` equals neither the full tail-to-tip extent `2·|vec| = 8`
nor `|vec| = 4`, so "combined length equals the original shaft length" fails
on either reading. -/
theorem arrow_combined_length_counterexample :
    Complex.abs (4:ℂ) > 3 * (1:ℝ) ∧
    arrowStart 4 1 = -3 ∧
    Complex.abs (4:ℂ) + Complex.abs (arrowStart 4 1) ≠
      2 * Complex.abs (4:ℂ) ∧
    Complex.abs (4:ℂ) + Complex.abs (arrowStart 4 1) ≠ Complex.abs (4:ℂ) := by
  have h4 : Complex.abs (4:ℂ) = 4 := Complex.abs_ofNat 4
  have hgt : Complex.abs (4:ℂ) > 3 * (1:ℝ) := by rw [h4]; norm_num
  have harg : cphase (4:ℂ) = 0 := by
    rw [cphase, show ((4:ℂ)) = (((4:ℝ)):ℂ) by norm_num]
    exact Complex.arg_ofReal_of_nonneg (by norm_num)
  have hstart : arrowStart 4 1 = -3 := by
    rw [arrowStart, if_pos hgt, harg, crect]
    simp [Complex.exp_zero]
    norm_num
  have h3 : Complex.abs (arrowStart 4 1) = 3 := by
    rw [hstart, Complex.abs.map_neg, Complex.abs_ofNat]
  exact ⟨hgt, hstart, by rw [h4, h3]; norm_num, by rw [h4, h3]; norm_num⟩

/-- Claim C3, amended: for `|vec| > 3·lc`, `arrow` draws the shaft as two
segments — origin to tip of length `|vec|`, and origin to a tail shortened
by `lc` of length `|vec| - lc`, for a combined drawn length of
`2·|vec| - lc` — and emits the tail chevron pair in addition to the tip
chevron pair (six `polar` calls in all). -/
theorem arrow_long_vector_shaft (origin vec : ℂ) (lc : ℝ)
    (h : Complex.abs vec > 3 * lc) :
    (arrowCalls origin vec lc).length = 6 ∧
    (arrowCalls origin vec lc).take 2 =
      [(origin, vec), (origin, arrowStart vec lc)] ∧
    Complex.abs vec + Complex.abs (arrowStart vec lc) =
      2 * Complex.abs vec - lc := by
  have hA : 0 ≤ Complex.abs vec := AbsoluteValue.nonneg _ _
  have htail : Complex.abs vec > lc := by
    rcases le_or_lt 0 lc with h0 | h0 <;> linarith
  have habs := arrowStart_abs vec lc h
  refine ⟨?_, ?_, by rw [habs]; ring⟩
  · simp [arrowCalls, htail]
  · simp [arrowCalls]

/-- Witness for `arrow_long_vector_shaft` at `vec = 4`, `lc = 1`. -/
theorem arrow_long_vector_shaft_witness :
    Complex.abs (4:ℂ) > 3 * (1:ℝ) ∧
    ((arrowCalls 0 4 1).length = 6 ∧
      (arrowCalls 0 4 1).take 2 = [(0, 4), (0, arrowStart 4 1)] ∧
      Complex.abs (4:ℂ) + Complex.abs (arrowStart 4 1) =
        2 * Complex.abs (4:ℂ) - 1) := by
  have h4 : Complex.abs (4:ℂ) = 4 := Complex.abs_ofNat 4
  exact ⟨by rw [h4]; norm_num,
    arrow_long_vector_shaft 0 4 1 (by rw [h4]; norm_num)⟩

/-- Claim C4, counterexample: for `vec = 1`, `lc = 2` (so `|vec| ≤ lc`)
`arrow` emits two distinct shaft line segments — origin to tip
`(0,0)→(1,0)` and origin to tail `(0,0)→(-1,0)` — so the shaft is not drawn
as a single full-length segment. -/
theorem arrow_short_vector_two_segments :
    Complex.abs (1:ℂ) ≤ (2:ℝ) ∧
    DevOp.line 0 0 1 0 7 ∈ arrow 0 1 2 7 ∧
    DevOp.line 0 0 (-1) 0 7 ∈ arrow 0 1 2 7 := by
  have h1 : Complex.abs (1:ℂ) = 1 := map_one Complex.abs
  have hstart : arrowStart 1 2 = -1 := by
    rw [arrowStart, if_neg]
    rw [h1]
    norm_num
  have hr0 : pyRound (0:ℝ) = 0 := by
    have := pyRound_intCast 0
    simpa using this
  have hr1 : pyRound (1:ℝ) = 1 := by
    have := pyRound_intCast 1
    simpa using this
  have hrm1 : pyRound (-1:ℝ) = -1 := by
    have := pyRound_intCast (-1)
    simpa using this
  refine ⟨by rw [h1]; norm_num, ?_, ?_⟩
  · refine List.mem_flatMap.mpr ⟨((0:ℂ), (1:ℂ)), ?_, ?_⟩
    · simp [arrowCalls]
    · simp [polar, hr0, hr1]
  · refine List.mem_flatMap.mpr ⟨((0:ℂ), (-1:ℂ)), ?_, ?_⟩
    · have : ((0:ℂ), (-1:ℂ)) = ((0:ℂ), arrowStart 1 2) := by rw [hstart]
      rw [this]
      simp [arrowCalls]
    · simp [polar, hr0, hrm1]

/-- Claim C4, amended: for `|vec| ≤ lc`, `arrow` emits no tail chevron
strokes — exactly four `polar` calls: the origin-to-tip shaft segment, the
origin-to-tail shaft segment (both full length `|vec|`, the tail is not
shortened), and the tip chevron pair. -/
theorem arrow_short_vector_calls (origin vec : ℂ) (lc : ℝ)
    (h : Complex.abs vec ≤ lc) :
    arrowCalls origin vec lc =
      [(origin, vec), (origin, -vec),
       (origin + conjv vec, ((lc:ℝ):ℂ) * ccw * crect 1 (cphase vec)),
       (origin + conjv vec, ((lc:ℝ):ℂ) * cw * crect 1 (cphase vec))] ∧
    Complex.abs (-vec) = Complex.abs vec := by
  have hA : 0 ≤ Complex.abs vec := AbsoluteValue.nonneg _ _
  have hns : ¬ (Complex.abs vec > 3 * lc) := by
    push_neg
    linarith
  have hnt : ¬ (Complex.abs vec > lc) := not_lt.mpr h
  refine ⟨?_, Complex.abs.map_neg vec⟩
  simp [arrowCalls, arrowStart, hns, hnt]

/-- Witness for `arrow_short_vector_calls` at `vec = 1`, `lc = 2`. -/
theorem arrow_short_vector_calls_witness :
    Complex.abs (1:ℂ) ≤ (2:ℝ) ∧
    (arrowCalls 0 1 2 =
      [(0, 1), (0, -1),
       (0 + conjv 1, (((2:ℝ)):ℂ) * ccw * crect 1 (cphase 1)),
       (0 + conjv 1, (((2:ℝ)):ℂ) * cw * crect 1 (cphase 1))] ∧
      Complex.abs (-1:ℂ) = Complex.abs (1:ℂ)) :=
  ⟨by rw [map_one Complex.abs]; norm_num,
    arrow_short_vector_calls 0 1 2 (by rw [map_one Complex.abs]; norm_num)⟩

/-! ### Claim C5: symmetry of the single-width circle pixel set

The proof shows the visited-state path of the `_circle` loop is a palindrome
under the 45°-reflection `(x, y) ↦ (-y, -x)`: the reversed, reflected path is
again a path of the deterministic step function and starts at the same state,
hence equals the original.  The invariant `Minv` records, at each visited
state, the inequality constraints implied by the step that entered it; these
suffice to reverse every step. -/

theorem circleGo_eq_xchain (r : ℤ) :
    ∀ (f : ℕ) (x y err : ℤ), err = Dx r x y →
      circleGo f x y err = xchain r f (x, y) := by
  intro f
  induction f with
  | zero => intro x y err _; rfl
  | succ f ih =>
    intro x y err h
    subst h
    rw [circleGo, xchain]
    by_cases hx : x ≤ 0
    · rw [if_pos hx, if_pos hx]
      congr 1
      simp only [xStep]
      by_cases h1 : Dx r x y ≤ y
      · rw [if_pos h1, if_pos h1]
        by_cases h2 : -x = y + 1 ∧ Dx r x y ≤ x
        · rw [if_pos h2, if_pos h2]
          by_cases h3 : (0:ℤ) > x
          · rw [if_pos h3, if_pos h3]
            exact ih (x+1) (y+1) _ (by unfold Dx; ring)
          · rw [if_neg h3, if_neg h3]
            exact ih x (y+1) _ (by unfold Dx; ring)
        · rw [if_neg h2, if_neg h2]
          by_cases h3 : Dx r x y > x
          · rw [if_pos h3, if_pos h3]
            exact ih (x+1) (y+1) _ (by unfold Dx; ring)
          · rw [if_neg h3, if_neg h3]
            exact ih x (y+1) _ (by unfold Dx; ring)
      · rw [if_neg h1, if_neg h1]
        by_cases h3 : Dx r x y > x
        · rw [if_pos h3, if_pos h3]
          exact ih (x+1) y _ (by unfold Dx; ring)
        · rw [if_neg h3, if_neg h3]
          exact ih x y _ rfl
    · rw [if_neg hx, if_neg hx]

theorem circleVisits_eq_xchain (r : ℤ) :
    circleVisits r = xchain r (2*r + 2).toNat (-r, 0) :=
  circleGo_eq_xchain r _ (-r) 0 _ (by unfold Dx; ring)

/-- In the loop region (`x ≤ 0 ≤ y`) each iteration is a `y`-step, a
diagonal step, or an `x`-step; the guards are mutually exclusive. -/
theorem xStep_cases (r x y : ℤ) (hx : x ≤ 0) (hy : 0 ≤ y) :
    (Dx r x y ≤ x ∧ -x ≠ y + 1) ∨
    ((x < Dx r x y ∧ Dx r x y ≤ y) ∨ (-x = y + 1 ∧ Dx r x y ≤ x)) ∨
    (y < Dx r x y) := by
  omega

theorem xStep_y (r x y : ℤ) (hx : x ≤ 0) (hy : 0 ≤ y)
    (hD : Dx r x y ≤ x) (hne : -x ≠ y + 1) : xStep r x y = (x, y + 1) := by
  unfold xStep
  rw [if_pos (show Dx r x y ≤ y by omega),
    if_neg (show ¬(-x = y + 1 ∧ Dx r x y ≤ x) from fun h => hne h.1),
    if_neg (show ¬(Dx r x y > x) by omega)]

theorem xStep_d (r x y : ℤ) (hx : x ≤ 0) (hy : 0 ≤ y)
    (hD : (x < Dx r x y ∧ Dx r x y ≤ y) ∨ (-x = y + 1 ∧ Dx r x y ≤ x)) :
    xStep r x y = (x + 1, y + 1) := by
  unfold xStep
  rcases hD with ⟨h1, h2⟩ | ⟨h1, h2⟩
  · rw [if_pos h2, if_neg (show ¬(-x = y + 1 ∧ Dx r x y ≤ x) by omega),
      if_pos h1]
  · rw [if_pos (show Dx r x y ≤ y by omega), if_pos ⟨h1, h2⟩,
      if_pos (show (0:ℤ) > x by omega)]

theorem xStep_x (r x y : ℤ) (hx : x ≤ 0) (hy : 0 ≤ y)
    (hD : y < Dx r x y) : xStep r x y = (x + 1, y) := by
  unfold xStep
  rw [if_neg (show ¬(Dx r x y ≤ y) by omega),
    if_pos (show Dx r x y > x by omega)]

/-- A step that increments `y` can only fire strictly below the top row
`y = r`. -/
theorem yinc_lt_r (r x y : ℤ) (hr : 0 ≤ r) (hy : 0 ≤ y)
    (hD : Dx r x y ≤ y) : y + 1 ≤ r := by
  by_contra hc
  push_neg at hc
  have h1 : r^2 ≤ y^2 := by nlinarith
  have h2 : (0:ℤ) ≤ (x+1)^2 := sq_nonneg _
  unfold Dx at hD
  nlinarith

theorem int_sq_mono (m n : ℤ) (h0 : 0 ≤ m) (h : m ≤ n) : m^2 ≤ n^2 := by
  nlinarith

/-- An integer `r ≥ 0` whose square lies in `[y² - y + 1, y² + y + 1)`
equals `y ≥ 0`. -/
theorem int_sq_window (r y : ℤ) (hr : 0 ≤ r) (hy : 0 ≤ y)
    (h1 : y^2 - y + 1 ≤ r^2) (h2 : r^2 < y^2 + y + 1) : r = y := by
  have h3 : r ≤ y := by
    by_contra h
    push_neg at h
    have := int_sq_mono (y + 1) r (by omega) (by omega)
    nlinarith
  have h4 : y ≤ r := by
    by_contra h
    push_neg at h
    have := int_sq_mono r (y - 1) hr (by omega)
    nlinarith
  omega

/-- The invariant `Minv` is preserved by every loop step that stays in the
loop region. -/
theorem Minv_preserved (r x y x' y' : ℤ) (hr : 1 ≤ r) (hx : x ≤ 0)
    (hy : 0 ≤ y) (hM : Minv r x y) (hstep : xStep r x y = (x', y'))
    (hx' : x' ≤ 0) : Minv r x' y' := by
  have e1 : Dx r x (y+1) = Dx r x y + 2*y + 3 := by unfold Dx; ring
  have e2 : Dx r (x+1) y = Dx r x y + 2*x + 3 := by unfold Dx; ring
  have e3 : Dx r (x+1) (y+1) = Dx r x y + 2*x + 2*y + 6 := by unfold Dx; ring
  have einit : x = -r → y = 0 → Dx r x y = 2 - 2*r := by
    rintro rfl rfl
    unfold Dx
    ring
  rcases xStep_cases r x y hx hy with hc | hc | hc
  · rw [xStep_y r x y hx hy hc.1 hc.2] at hstep
    injection hstep with h1 h2
    subst h1
    subst h2
    clear e2 e3
    unfold Minv at hM ⊢
    generalize hg1 : Dx r x (y+1) = d1 at *
    generalize hg0 : Dx r x y = d0 at *
    omega
  · rw [xStep_d r x y hx hy hc] at hstep
    injection hstep with h1 h2
    subst h1
    subst h2
    clear e1 e2
    unfold Minv at hM ⊢
    generalize hg1 : Dx r (x+1) (y+1) = d1 at *
    generalize hg0 : Dx r x y = d0 at *
    omega
  · rw [xStep_x r x y hx hy hc] at hstep
    injection hstep with h1 h2
    subst h1
    subst h2
    clear e1 e3
    unfold Minv at hM ⊢
    generalize hg1 : Dx r (x+1) y = d1 at *
    generalize hg0 : Dx r x y = d0 at *
    omega

/-- The crux of the symmetry proof: every in-loop step `(x, y) → (x', y')`
of a state satisfying the invariant reverses under the 45°-reflection
`(x, y) ↦ (-y, -x)`: the reflected successor steps to the reflected
predecessor. -/
theorem xStep_reverse (r x y x' y' : ℤ) (hr : 1 ≤ r) (hx : x ≤ 0)
    (hy : 0 ≤ y) (hM : Minv r x y) (hstep : xStep r x y = (x', y'))
    (hx' : x' ≤ 0) : xStep r (-y') (-x') = (-y, -x) := by
  have einit : x = -r → y = 0 → Dx r x y = 2 - 2*r := by
    rintro rfl rfl
    unfold Dx
    ring
  rcases xStep_cases r x y hx hy with hc | hc | hc
  · -- a y-step reverses to an x-step at (-(y+1), -x)
    rw [xStep_y r x y hx hy hc.1 hc.2] at hstep
    injection hstep with h1 h2
    subst h1
    subst h2
    have eY : Dx r (-(y+1)) (-x) = Dx r x y - 4*x - 2*y - 1 := by
      unfold Dx
      ring
    have hD : -x < Dx r (-(y+1)) (-x) := by
      unfold Minv at hM
      generalize hg1 : Dx r (-(y+1)) (-x) = d1 at *
      generalize hg0 : Dx r x y = d0 at *
      omega
    rw [xStep_x r (-(y+1)) (-x) (by omega) (by omega) hD]
    congr 1 <;> omega
  · -- a diagonal step reverses to a diagonal step at (-(y+1), -(x+1))
    have hstep' := xStep_d r x y hx hy hc
    rw [hstep'] at hstep
    injection hstep with h1 h2
    subst h1
    subst h2
    rcases hc with hcn | hct
    · have eD : Dx r (-(y+1)) (-(x+1)) = Dx r x y - 2*x - 2*y - 2 := by
        unfold Dx
        ring
      have key : -(y+1) < Dx r (-(y+1)) (-(x+1)) ∧
          Dx r (-(y+1)) (-(x+1)) ≤ -(x+1) := by
        unfold Minv at hM
        generalize hg1 : Dx r (-(y+1)) (-(x+1)) = d1 at *
        generalize hg0 : Dx r x y = d0 at *
        omega
      rw [xStep_d r (-(y+1)) (-(x+1)) (by omega) (by omega) (Or.inl key)]
      congr 1 <;> omega
    · -- tie-case diagonal: the reflected successor is the state itself
      have ea : (-(y+1) : ℤ) = x := by omega
      have eb : (-(x+1) : ℤ) = y := by omega
      rw [ea, eb, hstep']
      congr 1 <;> omega
  · -- an x-step reverses to a y-step at (-y, -(x+1))
    rw [xStep_x r x y hx hy hc] at hstep
    injection hstep with h1 h2
    subst h1
    subst h2
    have eX : Dx r (-y) (-(x+1)) = Dx r x y - 2*x - 4*y - 1 := by
      unfold Dx
      ring
    have key : Dx r (-y) (-(x+1)) ≤ -y ∧ -(-y) ≠ -(x+1) + 1 := by
      unfold Minv at hM
      generalize hg1 : Dx r (-y) (-(x+1)) = d1 at *
      generalize hg0 : Dx r x y = d0 at *
      omega
    rw [xStep_y r (-y) (-(x+1)) (by omega) (by omega) key.1 key.2]
    congr 1 <;> omega

/-- When the loop leaves the region (the step from a state with `x = 0`
increments `x`), the invariant forces the final state to be `(0, r)`. -/
theorem exit_at_top (r y : ℤ) (hr : 1 ≤ r) (hy : 0 ≤ y)
    (hM : Minv r 0 y) (hstep1 : (xStep r 0 y).1 = 1) : y = r := by
  have hDe : Dx r 0 y = 1 + (y+1)^2 - r^2 := by
    unfold Dx
    ring
  have ey : (y+1)^2 = y^2 + 2*y + 1 := by ring
  rcases xStep_cases r 0 y (by omega) hy with hc | hc | hc
  · rw [xStep_y r 0 y (by omega) hy hc.1 hc.2] at hstep1
    simp at hstep1
  · exfalso
    unfold Minv at hM
    generalize hg0 : Dx r 0 y = d0 at *
    omega
  · unfold Minv at hM
    rcases hM with ⟨h1, _⟩ | ⟨h1, h2, h3⟩ | ⟨h1, h2⟩ | ⟨h1, h2⟩ | ⟨h1, h2⟩
    · omega
    · omega
    · refine (int_sq_window r y (by omega) hy ?_ ?_).symm <;> omega
    · refine (int_sq_window r y (by omega) hy ?_ ?_).symm <;> omega
    · exfalso
      have ey2 : y^2 = 1 := by
        rw [show y = 1 by omega]
        norm_num
      have hr2 : r^2 = 2 := by omega
      rcases (show r = 1 ∨ 2 ≤ r by omega) with h | h
      · rw [show r = 1 by omega] at hr2
        norm_num at hr2
      · have h4 := int_sq_mono 2 r (by omega) h
        norm_num at h4
        omega

theorem xchain_nil_of_pos (r : ℤ) (f : ℕ) (q : ℤ × ℤ) (h : 0 < q.1) :
    xchain r f q = [] := by
  cases f with
  | zero => rfl
  | succ f =>
    simp only [xchain]
    rw [if_neg (by omega)]

/-- The master path lemma: from any in-loop state satisfying the invariant,
with enough fuel, the visited-state list starts at that state, ends at
`(0, r)`, follows `xStep`, and every consecutive pair also reverses under
the 45°-reflection. -/
theorem xchain_props (r : ℤ) (hr : 1 ≤ r) :
    ∀ (f : ℕ) (x y : ℤ), x ≤ 0 → 0 ≤ y → y ≤ r → Minv r x y →
      (1 - x + (r - y)).toNat ≤ f →
      (xchain r f (x, y)).head? = some (x, y) ∧
      (xchain r f (x, y)).getLast? = some (0, r) ∧
      List.Chain' (fun u v => xStep r u.1 u.2 = v) (xchain r f (x, y)) ∧
      List.Chain' (fun u v => xStep r (-v.2) (-v.1) = (-u.2, -u.1))
        (xchain r f (x, y)) := by
  intro f
  induction f with
  | zero =>
    intro x y hx hy hyr _ hf
    exfalso
    omega
  | succ f ih =>
    intro x y hx hy hyr hM hf
    have hcons : xchain r (f+1) (x, y) = (x, y) :: xchain r f (xStep r x y) := by
      simp only [xchain]
      rw [if_pos hx]
    rcases hxy : xStep r x y with ⟨x', y'⟩
    have hshape : (x' = x ∧ y' = y + 1) ∨ (x' = x + 1 ∧ y' = y + 1) ∨
        (x' = x + 1 ∧ y' = y) := by
      rcases xStep_cases r x y hx hy with hc | hc | hc
      · have h := hxy
        rw [xStep_y r x y hx hy hc.1 hc.2] at h
        injection h with a b
        omega
      · have h := hxy
        rw [xStep_d r x y hx hy hc] at h
        injection h with a b
        omega
      · have h := hxy
        rw [xStep_x r x y hx hy hc] at h
        injection h with a b
        omega
    have hyraux : y' = y + 1 → y + 1 ≤ r := by
      intro hy1
      rcases xStep_cases r x y hx hy with hc | hc | hc
      · exact yinc_lt_r r x y (by omega) hy (by omega)
      · rcases hc with ⟨_, h2⟩ | ⟨_, h2⟩
        · exact yinc_lt_r r x y (by omega) hy h2
        · exact yinc_lt_r r x y (by omega) hy (by omega)
      · have h := hxy
        rw [xStep_x r x y hx hy hc] at h
        injection h with a b
        omega
    by_cases hx' : x' ≤ 0
    · have hy' : 0 ≤ y' := by omega
      have hyr' : y' ≤ r := by
        rcases hshape with ⟨_, ha⟩ | ⟨_, hb⟩ | ⟨_, hd⟩
        · have := hyraux (by omega)
          omega
        · have := hyraux (by omega)
          omega
        · omega
      have hM' : Minv r x' y' := Minv_preserved r x y x' y' hr hx hy hM hxy hx'
      have hf' : (1 - x' + (r - y')).toNat ≤ f := by omega
      obtain ⟨ihh, ihl, ihs, ihc⟩ := ih x' y' hx' hy' hyr' hM' hf'
      rw [hcons, hxy]
      obtain ⟨p, rest, hpr⟩ : ∃ p rest, xchain r f (x', y') = p :: rest := by
        rcases hl : xchain r f (x', y') with _ | ⟨p, rest⟩
        · rw [hl] at ihh
          simp at ihh
        · exact ⟨p, rest, rfl⟩
      have hphead : p = (x', y') := by
        rw [hpr] at ihh
        simpa using ihh
      refine ⟨by simp, ?_, ?_, ?_⟩
      · rw [hpr, List.getLast?_cons_cons, ← hpr, ihl]
      · rw [hpr, List.chain'_cons]
        refine ⟨?_, ?_⟩
        · rw [hphead]
          exact hxy
        · rw [← hpr]
          exact ihs
      · rw [hpr, List.chain'_cons]
        refine ⟨?_, ?_⟩
        · rw [hphead]
          exact xStep_reverse r x y x' y' hr hx hy hM hxy hx'
        · rw [← hpr]
          exact ihc
    · push_neg at hx'
      have hnil : xchain r f (x', y') = [] :=
        xchain_nil_of_pos r f (x', y') (by simpa using hx')
      rw [hcons, hxy, hnil]
      have hx0 : x = 0 := by
        rcases hshape with ⟨ha, _⟩ | ⟨hb, _⟩ | ⟨hd, _⟩ <;> omega
      subst hx0
      have hyr2 : y = r := by
        refine exit_at_top r y hr hy hM ?_
        rw [hxy]
        show x' = 1
        rcases hshape with ⟨ha, _⟩ | ⟨hb, _⟩ | ⟨hd, _⟩ <;> omega
      refine ⟨rfl, ?_, List.chain'_singleton _, List.chain'_singleton _⟩
      rw [hyr2]
      rfl

/-- Lists that follow the same deterministic step function, start at the
same state and have the same length are equal. -/
theorem chain_eq_of_step {α : Type} (g : α → α) :
    ∀ (l₁ l₂ : List α), List.Chain' (fun u w => g u = w) l₁ →
      List.Chain' (fun u w => g u = w) l₂ →
      l₁.head? = l₂.head? → l₁.length = l₂.length → l₁ = l₂ := by
  intro l₁
  induction l₁ with
  | nil =>
    intro l₂ _ _ _ hlen
    cases l₂ with
    | nil => rfl
    | cons b t => simp at hlen
  | cons a t ih =>
    intro l₂ h₁ h₂ hhead hlen
    cases l₂ with
    | nil => simp at hlen
    | cons b s =>
      have hab : a = b := by simpa using hhead
      subst hab
      congr 1
      cases t with
      | nil =>
        cases s with
        | nil => rfl
        | cons d s' => simp at hlen
      | cons e t' =>
        cases s with
        | nil => simp at hlen
        | cons d s' =>
          rw [List.chain'_cons] at h₁ h₂
          have hed : e = d := by rw [← h₁.1, ← h₂.1]
          subst hed
          exact ih (e :: s') h₁.2 h₂.2 rfl (by simpa using hlen)

/-- The visited-state set of the `_circle` loop is closed under the
45°-reflection `(x, y) ↦ (-y, -x)`. -/
theorem circleVisits_swap_mem (r : ℤ) (hge : 0 ≤ r) (p : ℤ × ℤ)
    (hp : p ∈ circleVisits r) : (-p.2, -p.1) ∈ circleVisits r := by
  rcases eq_or_lt_of_le hge with hr0 | hr
  · have hv0 : circleVisits r = [(0, 0)] := by
      rw [← hr0]
      rfl
    rw [hv0] at hp ⊢
    simp at hp
    simp [hp]
  obtain ⟨hh, hl, hs, hc⟩ := xchain_props r hr (2*r + 2).toNat (-r) 0
    (by omega) (by omega) (by omega) (Or.inl ⟨rfl, rfl⟩) (by omega)
  have hrev : xchain r (2*r + 2).toNat (-r, 0) =
      ((xchain r (2*r + 2).toNat (-r, 0)).reverse).map
        (fun q => (-q.2, -q.1)) := by
    refine chain_eq_of_step (fun q => xStep r q.1 q.2) _ _ hs ?_ ?_ ?_
    · rw [List.chain'_map, List.chain'_reverse]
      exact hc
    · rw [List.head?_map, List.head?_reverse, hl, hh]
      simp
    · simp
  rw [circleVisits_eq_xchain] at hp ⊢
  rw [hrev] at hp
  obtain ⟨q, hq, hfq⟩ := List.mem_map.mp hp
  rw [List.mem_reverse] at hq
  subst hfq
  simpa using hq

/-- Which pixels `_circle` writes, in terms of the visited loop states. -/
theorem mem_circle_iff (x0 y0 r c u v : ℤ) :
    DevOp.pixel (x0 + u) (y0 + v) c ∈ _circle x0 y0 r c ↔
      ∃ p ∈ circleVisits r, (u = -p.1 ∨ u = p.1) ∧ (v = p.2 ∨ v = -p.2) := by
  unfold _circle
  rw [List.mem_flatMap]
  constructor
  · rintro ⟨p, hp, hmem⟩
    refine ⟨p, hp, ?_⟩
    simp only [List.mem_cons, List.not_mem_nil, or_false,
      DevOp.pixel.injEq] at hmem
    rcases hmem with ⟨h1, h2, _⟩ | ⟨h1, h2, _⟩ | ⟨h1, h2, _⟩ | ⟨h1, h2, _⟩ <;>
      exact ⟨by omega, by omega⟩
  · rintro ⟨p, hp, hu, hv⟩
    refine ⟨p, hp, ?_⟩
    simp only [List.mem_cons, List.not_mem_nil, or_false, DevOp.pixel.injEq]
    rcases hu with rfl | rfl <;> rcases hv with rfl | rfl
    · exact Or.inl ⟨by ring, by ring, trivial⟩
    · exact Or.inr (Or.inr (Or.inr ⟨by ring, by ring, trivial⟩))
    · exact Or.inr (Or.inl ⟨by ring, by ring, trivial⟩)
    · exact Or.inr (Or.inr (Or.inl ⟨by ring, by ring, trivial⟩))

/-- One 90° rotation of pixel membership about the center. -/
theorem circle_mem_rot (x0 y0 r c u v : ℤ) (hr : 0 ≤ r)
    (h : DevOp.pixel (x0 + u) (y0 + v) c ∈ _circle x0 y0 r c) :
    DevOp.pixel (x0 + v) (y0 + -u) c ∈ _circle x0 y0 r c := by
  rcases (mem_circle_iff x0 y0 r c u v).mp h with ⟨p, hp, hu, hv⟩
  have hq := circleVisits_swap_mem r hr p hp
  refine (mem_circle_iff x0 y0 r c v (-u)).mpr ⟨(-p.2, -p.1), hq, ?_, ?_⟩
  · show v = -(-p.2) ∨ v = -p.2
    omega
  · show -u = -p.1 ∨ -u = -(-p.1)
    omega

/-- Claim C5: for every integer center `(x0, y0)` and radius `r ≥ 0`, the
pixel set emitted by the single-width circle algorithm `_circle` is
symmetric under reflection across the vertical axis through the center,
under reflection across the horizontal axis, and under 90° rotation about
the center (`(u, v) ↦ (v, -u)` on offsets). -/
theorem circle_pixel_symmetry (x0 y0 r c : ℤ) (hr : 0 ≤ r) (u v : ℤ) :
    ((DevOp.pixel (x0 + u) (y0 + v) c ∈ _circle x0 y0 r c) ↔
      (DevOp.pixel (x0 - u) (y0 + v) c ∈ _circle x0 y0 r c)) ∧
    ((DevOp.pixel (x0 + u) (y0 + v) c ∈ _circle x0 y0 r c) ↔
      (DevOp.pixel (x0 + u) (y0 - v) c ∈ _circle x0 y0 r c)) ∧
    ((DevOp.pixel (x0 + u) (y0 + v) c ∈ _circle x0 y0 r c) ↔
      (DevOp.pixel (x0 + v) (y0 - u) c ∈ _circle x0 y0 r c)) := by
  have hrefl1 : ∀ a b : ℤ,
      DevOp.pixel (x0 + a) (y0 + b) c ∈ _circle x0 y0 r c →
      DevOp.pixel (x0 + -a) (y0 + b) c ∈ _circle x0 y0 r c := by
    intro a b h
    rcases (mem_circle_iff x0 y0 r c a b).mp h with ⟨p, hp, hu, hv⟩
    exact (mem_circle_iff x0 y0 r c (-a) b).mpr ⟨p, hp, by omega, hv⟩
  have hrefl2 : ∀ a b : ℤ,
      DevOp.pixel (x0 + a) (y0 + b) c ∈ _circle x0 y0 r c →
      DevOp.pixel (x0 + a) (y0 + -b) c ∈ _circle x0 y0 r c := by
    intro a b h
    rcases (mem_circle_iff x0 y0 r c a b).mp h with ⟨p, hp, hu, hv⟩
    exact (mem_circle_iff x0 y0 r c a (-b)).mpr ⟨p, hp, hu, by omega⟩
  have hrot : ∀ a b : ℤ,
      DevOp.pixel (x0 + a) (y0 + b) c ∈ _circle x0 y0 r c →
      DevOp.pixel (x0 + b) (y0 + -a) c ∈ _circle x0 y0 r c :=
    fun a b h => circle_mem_rot x0 y0 r c a b hr h
  refine And.intro (Iff.intro (fun h => ?_) (fun h => ?_))
    (And.intro (Iff.intro (fun h => ?_) (fun h => ?_))
      (Iff.intro (fun h => ?_) (fun h => ?_)))
  · rw [show x0 - u = x0 + -u by ring]
    exact hrefl1 u v h
  · rw [show x0 - u = x0 + -u by ring] at h
    have h2 := hrefl1 (-u) v h
    rw [show x0 + -(-u) = x0 + u by ring] at h2
    exact h2
  · rw [show y0 - v = y0 + -v by ring]
    exact hrefl2 u v h
  · rw [show y0 - v = y0 + -v by ring] at h
    have h2 := hrefl2 u (-v) h
    rw [show y0 + -(-v) = y0 + v by ring] at h2
    exact h2
  · rw [show y0 - u = y0 + -u by ring]
    exact hrot u v h
  · rw [show y0 - u = y0 + -u by ring] at h
    have h1 := hrot v (-u) h
    have h2 := hrot (-u) (-v) h1
    rw [show y0 + -(-u) = y0 + u by ring] at h2
    have h3 := hrot (-v) u h2
    rw [show y0 + -(-v) = y0 + v by ring] at h3
    exact h3

/-- Witness for `circle_pixel_symmetry` at `r = 2`, center `(0, 0)`,
offset `(2, 0)`. -/
theorem circle_pixel_symmetry_witness :
    (0:ℤ) ≤ 2 ∧
    (((DevOp.pixel (0 + 2) (0 + 0) 1 ∈ _circle 0 0 2 1) ↔
        (DevOp.pixel (0 - 2) (0 + 0) 1 ∈ _circle 0 0 2 1)) ∧
      ((DevOp.pixel (0 + 2) (0 + 0) 1 ∈ _circle 0 0 2 1) ↔
        (DevOp.pixel (0 + 2) (0 - 0) 1 ∈ _circle 0 0 2 1)) ∧
      ((DevOp.pixel (0 + 2) (0 + 0) 1 ∈ _circle 0 0 2 1) ↔
        (DevOp.pixel (0 + 0) (0 - 2) 1 ∈ _circle 0 0 2 1))) :=
  ⟨by decide, circle_pixel_symmetry 0 0 2 1 (by decide) 2 0⟩

end NanoGui
